import Mathlib

/-!
# Verification of the email-scraping job engine (`src/lib/scraper.ts`)

Shallow embedding of the core of the scraper: the email validator and
deduplicator (`validateEmail`, `cleanAndDeduplicateEmails`), the per-URL
fetch/extract routine (`extractEmailFromWebsite`, `extractEmailsFromHtml`)
and the job runner (`startEmailScraping`), together with the observer-side
progress derivation of the job GET route (`src/app/api/jobs/[id]/route.ts`).

Strings are modelled as `List Char` (`Str`).  JavaScript string operations
(`trim`, `toLowerCase`, `includes`, `split`, `replace`, `startsWith`) are
embedded as executable functions on `Str`; `toLowerCase` is modelled on the
ASCII range, which covers every character admitted by the email regexes of
the source.  The regex tests of the source are embedded by their documented
match semantics (the regexes involved use only character classes, anchors
and bounded alternation, so each test has a direct structural reading).
-/

set_option maxHeartbeats 1000000

namespace Scraper

/-- Strings are lists of characters. -/
abbrev Str := List Char

/-- Convert a Lean string literal to the model representation. -/
def str (s : String) : Str := s.data

/-! ## Character classes of the source regexes -/

/-- `[0-9]` -/
def isDigitC (c : Char) : Bool := '0' ≤ c && c ≤ '9'

/-- `[a-z]` -/
def isLowerC (c : Char) : Bool := 'a' ≤ c && c ≤ 'z'

/-- `[A-Z]` -/
def isUpperC (c : Char) : Bool := 'A' ≤ c && c ≤ 'Z'

/-- `[a-zA-Z]` -/
def isAlphaC (c : Char) : Bool := isLowerC c || isUpperC c

/-- `[a-zA-Z0-9]` -/
def isAlnumC (c : Char) : Bool := isAlphaC c || isDigitC c

/-- `[a-zA-Z0-9._%+-]`, the local-part class of the email shape regex. -/
def isLocalChar (c : Char) : Bool :=
  isAlnumC c || c = '.' || c = '_' || c = '%' || c = '+' || c = '-'

/-- `[a-zA-Z0-9.-]`, the domain class of the email shape regex. -/
def isDomChar (c : Char) : Bool := isAlnumC c || c = '.' || c = '-'

/-- JavaScript whitespace as far as it matters here (ASCII). -/
def isSpaceC (c : Char) : Bool := c = ' ' || c = '\t' || c = '\n' || c = '\r'

/-! ## JavaScript string primitives -/

/-- ASCII case folding of one character, as `String.prototype.toLowerCase`
acts on the ASCII range. -/
def lowerChar (c : Char) : Char :=
  if isUpperC c then Char.ofNat (c.toNat + 32) else c

/-- `s.toLowerCase()` (ASCII fragment). -/
def jsToLower (s : Str) : Str := s.map lowerChar

/-- Drop the longest suffix of characters satisfying `p`. -/
def dropTrailing (p : Char → Bool) (s : Str) : Str :=
  (s.reverse.dropWhile p).reverse

/-- `s.trim()`. -/
def jsTrim (s : Str) : Str := dropTrailing isSpaceC (s.dropWhile isSpaceC)

/-- `s.includes(pat)`: `pat` occurs contiguously in `s`. -/
def includesL (s pat : Str) : Bool := decide (pat <:+: s)

/-- `s.split(c)` for a one-character separator: JavaScript splits at every
occurrence, keeping empty fields. -/
def splitOnChar (c : Char) : Str → List Str
  | [] => [[]]
  | a :: rest =>
    let r := splitOnChar c rest
    if a = c then [] :: r
    else
      match r with
      | h :: t => (a :: h) :: t
      | [] => [[a]]

/-- `s.replace(pat, repl)` with a string pattern: replace the first
occurrence only. -/
def replaceFirst (pat repl : Str) : Str → Str
  | [] => if pat.isEmpty then repl else []
  | a :: rest =>
    if pat.isPrefixOf (a :: rest) then repl ++ (a :: rest).drop pat.length
    else a :: replaceFirst pat repl rest

/-! ## Constants of `scraper.ts` (lines 8-11) -/

/-- `IGNORE_DOMAINS` (scraper.ts lines 8-11). -/
def IGNORE_DOMAINS : List Str :=
  [str "wix.com", str "domain.com", str "example.com", str "sentry.io",
   str "wixpress.com", str "squarespace.com", str "wordpress.com",
   str "shopify.com"]

/-! ## `validateEmail` (scraper.ts lines 195-220) -/

/-- The image-extension patterns of the regex
`/\.(png|jpg|jpeg|gif|svg|webp|ico)/`; the regex has no anchors, so the
test holds exactly when one of these strings occurs in the input. -/
def IMAGE_EXT_PATTERNS : List Str :=
  [str ".png", str ".jpg", str ".jpeg", str ".gif", str ".svg",
   str ".webp", str ".ico"]

/-- Test of `/\.(png|jpg|jpeg|gif|svg|webp|ico)/` (scraper.ts line 200). -/
def hasImageExt (s : Str) : Bool :=
  IMAGE_EXT_PATTERNS.any (fun p => includesL s p)

/-- `email.replace(/^[^a-zA-Z0-9]+|[^a-zA-Z0-9.]+$/g, '')`
(scraper.ts line 205): remove the leading run of non-alphanumeric
characters, then the trailing run of characters that are neither
alphanumeric nor a dot. -/
def stripEdges (s : Str) : Str :=
  dropTrailing (fun c => !(isAlnumC c || c = '.')) (s.dropWhile (fun c => !isAlnumC c))

/-- The substring of `s` after its last occurrence of `c` (the whole of `s`
when `c` does not occur). -/
def afterLast (c : Char) (s : Str) : Str :=
  (s.reverse.takeWhile (fun a => a ≠ c)).reverse

/-- Test of `/^[a-zA-Z0-9._%+-]+@[a-zA-Z0-9.-]+\.[a-zA-Z]{2,}$/`
(scraper.ts line 208).  Neither character class contains `@`, so a match
forces exactly one `@`; the domain side matches exactly when all its
characters lie in `[a-zA-Z0-9.-]` and the segment after its last dot is two
or more letters with a nonempty part before the dot (a dot inside the
final `[a-zA-Z]{2,}` block is impossible, so the dot of the regex is
necessarily the last dot of the string). -/
def validShape (s : Str) : Bool :=
  match splitOnChar '@' s with
  | [l, d] =>
    !l.isEmpty && l.all isLocalChar && d.all isDomChar && d.contains '.' &&
    decide (2 ≤ (afterLast '.' d).length) && (afterLast '.' d).all isAlphaC &&
    decide ((afterLast '.' d).length + 2 ≤ d.length)
  | _ => false

/-- Test of `/\d+x\d+/` (scraper.ts line 214): the regex matches exactly
when some digit is followed by `x` and a digit. -/
def hasDimPattern : Str → Bool
  | a :: b :: c :: rest =>
    (isDigitC a && b = 'x' && isDigitC c) || hasDimPattern (b :: c :: rest)
  | _ => false

/-- `validateEmail` (scraper.ts lines 195-220): trim and lowercase, reject
image-like strings, strip invalid edge characters, then accept exactly the
strings matching the email shape whose domain part contains a dot and no
`\d+x\d+` dimension pattern. -/
def validateEmail (email : Str) : Option Str :=
  let e := jsToLower (jsTrim email)
  if hasImageExt e then none
  else
    let e2 := stripEdges e
    if validShape e2 then
      match splitOnChar '@' e2 with
      | [_u, d] => if d.contains '.' && !hasDimPattern d then some e2 else none
      | _ => none
    else none

/-! ## `cleanAndDeduplicateEmails` (scraper.ts lines 237-292) -/

/-- `validEmail.includes(ignoreDomain)` test over `IGNORE_DOMAINS`
(scraper.ts line 248). -/
def inIgnoreDomains (e : Str) : Bool :=
  IGNORE_DOMAINS.any (fun d => includesL e d)

/-- One insertion into the insertion-ordered set `cleanEmails`
(a JavaScript `Set` keeps the first occurrence in insertion order). -/
def addUnique (acc : List Str) (x : Str) : List Str :=
  if x ∈ acc then acc else acc ++ [x]

/-- Processing of one candidate by the first round (scraper.ts lines
244-252): validate, skip ignore-domain hits, insert into the set. -/
def cleanStep (acc : List Str) (email : Str) : List Str :=
  match validateEmail email with
  | some validEmail =>
    if inIgnoreDomains validEmail then acc else addUnique acc validEmail
  | none => acc

/-- First round of cleaning and deduplication (scraper.ts lines 242-252,
with `Array.from` of the insertion-ordered set at line 256): validate each
candidate, skip ignore-domain hits, collect unique survivors in first-seen
order. -/
def cleanPhase1 (emailsList : List Str) : List Str :=
  emailsList.foldl cleanStep []

/-- `username.split('.').pop()`: the part after the last dot. -/
def lastSeg (u : Str) : Str := (splitOnChar '.' u).getLastD []

/-- The branch chain of the containment loop (scraper.ts lines 262-282) for
one ordered pair `(x, y)` = `(finalEmails[i], finalEmails[j])`:
`some true` means the loop adds `x` to `emailsToRemove`, `some false` means
it adds `y`, `none` means neither. -/
def pairMark (x y : Str) : Option Bool :=
  match splitOnChar '@' x, splitOnChar '@' y with
  | [u1, d1], [u2, d2] =>
    if d1 = d2 then
      if includesL u1 u2 then some true
      else if includesL u2 u1 then some false
      else if u1.contains '.' && decide (lastSeg u1 = u2) then some true
      else if u2.contains '.' && decide (lastSeg u2 = u1) then some false
      else none
    else none
  | _, _ => none

/-- Membership in `emailsToRemove` (scraper.ts lines 255-286): the loop
ranges over all ordered index pairs `i ≠ j` with distinct entries, so an
entry `x` is flagged exactly when some other entry `y` makes a branch add
`x` — either as the first element of the pair `(x, y)` or as the second
element of the pair `(y, x)`. -/
def markedForRemoval (finalEmails : List Str) (x : Str) : Bool :=
  finalEmails.any (fun y =>
    !decide (x = y) &&
    (decide (pairMark x y = some true) || decide (pairMark y x = some false)))

/-- `cleanAndDeduplicateEmails` (scraper.ts lines 237-292). -/
def cleanAndDeduplicateEmails (emailsList : List Str) : List Str :=
  if emailsList.isEmpty then []
  else
    let finalEmails := cleanPhase1 emailsList
    finalEmails.filter (fun e => !markedForRemoval finalEmails e)

/-! ## `extractEmailsFromHtml` (scraper.ts lines 853-875)

The cheerio body-text extraction and the global email regex
`/\b[A-Za-z0-9._%+-]+@[A-Za-z0-9.-]+\.[A-Z|a-z]{2,}\b/g` are abstracted:
the function below receives the list of regex matches and performs the
filtering of lines 863-870, which is the part the claims are about. -/

/-- The filter of scraper.ts lines 863-870: drop matches whose lowercased
form contains a no-reply marker or `example.com`. -/
def keepNonServiceEmail (email : Str) : Bool :=
  let lowerEmail := jsToLower email
  !includesL lowerEmail (str "noreply") &&
  !includesL lowerEmail (str "no-reply") &&
  !includesL lowerEmail (str "donotreply") &&
  !includesL lowerEmail (str "no_reply") &&
  !includesL lowerEmail (str "example.com")

/-- `extractEmailsFromHtml` (scraper.ts lines 853-875), applied to the
matches of the email regex over the page body text. -/
def extractEmailsFromHtml (regexMatches : List Str) : List Str :=
  regexMatches.filter keepNonServiceEmail

/-! ## `extractEmailFromWebsite` (scraper.ts lines 778-850) -/

/-- The priority test of scraper.ts lines 801-807 and 829-835: the
lowercased **whole** email string is tested with `includes` for each
keyword. -/
def isPriorityEmail (email : Str) : Bool :=
  let lowerEmail := jsToLower email
  includesL lowerEmail (str "contact") || includesL lowerEmail (str "info") ||
  includesL lowerEmail (str "hello") || includesL lowerEmail (str "support")

/-- The selection of scraper.ts lines 799-812: if any emails were
extracted, return the first priority email when one exists, else the first
email; return `none` when the list is empty. -/
def selectEmail (emails : List Str) : Option Str :=
  if emails.length > 0 then
    let priorityEmails := emails.filter isPriorityEmail
    if priorityEmails.length > 0 then priorityEmails.head? else emails.head?
  else none

/-- Outcome of one `axios.get`: `some matches` is a successful response
whose body text yields the given email-regex matches, `none` is a thrown
error (timeout, DNS, TLS, non-2xx status). -/
abbrev FetchOracle := Str → Option (List Str)

/-- `extractEmailFromWebsite` (scraper.ts lines 778-850), over a fetch
oracle.  Returns the result — `Except.error ()` models the function
throwing `Failed to access website` — together with the list of URLs
passed to `axios.get`, in order.  Note the retry guard of line 815 tests
`website.includes('https://')` on the **submitted** string, not on the
normalized URL of lines 783-786. -/
def extractEmailFromWebsite (fetch : FetchOracle) (website : Str) :
    Except Unit (Option Str) × List Str :=
  let url :=
    if (str "http://").isPrefixOf website || (str "https://").isPrefixOf website
    then website else str "https://" ++ website
  match fetch url with
  | some ms =>
    (Except.ok (selectEmail (extractEmailsFromHtml ms)), [url])
  | none =>
    if includesL website (str "https://") then
      let httpUrl := replaceFirst (str "https://") (str "http://") website
      match fetch httpUrl with
      | some ms =>
        (Except.ok (selectEmail (extractEmailsFromHtml ms)), [url, httpUrl])
      | none => (Except.error (), [url, httpUrl])
    else (Except.error (), [url])

/-! ## `startEmailScraping` (scraper.ts lines 57-190) and the job GET route

The runner is modelled by the sequence of persistence events it issues.
Within a batch the concurrent completions are linearized in program order;
every per-URL completion — success or thrown error — issues exactly one
`prisma.result.create` (lines 83-89 and 116-122).  Orchestration faults are
modelled at the three `prisma.job.update` sites: the initial transition to
`processing` (line 62), the final transition to `completed` (line 148) and
the `failed` transition of the catch handler (line 170, whose own failure
is swallowed by lines 174-176). -/

/-- Job status strings used by the runner. -/
inductive JobStatus where
  | pending
  | processing
  | completed
  | failed
deriving DecidableEq, Repr

/-- A persistence event issued by the runner. -/
inductive Event where
  | statusUpdate (s : JobStatus)
  | resultCreate (website : Str) (email : Option Str)
deriving DecidableEq, Repr

/-- Outcome of `extractEmailFromWebsite` for one URL as seen by the runner:
either it returned (an email or `null`), or it threw. -/
inductive UrlOutcome where
  | success (email : Option Str)
  | failure
deriving DecidableEq, Repr

/-- The email stored for one URL: the returned email on success
(`email || null` of line 87), `null` when the extraction threw
(line 120). -/
def resultEmail : UrlOutcome → Option Str
  | .success e => e
  | .failure => none

/-- The event trace of `startEmailScraping` (scraper.ts lines 57-190) for
one job, given the per-URL outcomes and the orchestration-fault pattern.
`initFault` makes the `processing` update throw, `finalFault` makes the
`completed` update throw, `failFault` makes the catch handler's `failed`
update throw (that failure is swallowed).  Per-URL fetch failures are not
faults: both branches of the per-URL try/catch create a `Result` row and
continue. -/
def runnerTrace (urls : List Str) (outcome : Str → UrlOutcome)
    (initFault finalFault failFault : Bool) : List Event :=
  if initFault then
    if failFault then [] else [Event.statusUpdate .failed]
  else
    Event.statusUpdate .processing ::
      (urls.map (fun u => Event.resultCreate u (resultEmail (outcome u))) ++
       (if finalFault then
          if failFault then [] else [Event.statusUpdate .failed]
        else [Event.statusUpdate .completed]))

/-- Number of `Result` rows visible after a prefix of the trace. -/
def countResults (events : List Event) : Nat :=
  (events.filter (fun e => match e with
    | .resultCreate _ _ => true
    | _ => false)).length

/-- The `Result` rows of the trace, as (website, email) pairs. -/
def resultRows (events : List Event) : List (Str × Option Str) :=
  events.filterMap (fun e => match e with
    | .resultCreate w m => some (w, m)
    | _ => none)

/-- `processedUrls` as served to an observer by the job GET route
(`src/app/api/jobs/[id]/route.ts` lines 103-105): the number of persisted
`Result` rows. -/
def observedProcessed (events : List Event) : Nat := countResults events

/-- `progress` as served by the job GET route (line 105):
`Math.min(100, Math.floor(processed / total * 100))` for a positive total,
`0` otherwise (real-arithmetic reading of the float expression). -/
def observedProgress (totalUrls : Nat) (events : List Event) : Nat :=
  if totalUrls > 0 then min 100 (observedProcessed events * 100 / totalUrls)
  else 0

/-- Local part of an email: the field before the `@` of `split('@')`. -/
def localPartOf (e : Str) : Str := (splitOnChar '@' e).headD []

/-- Domain of an email: the field after the `@` of `split('@')`. -/
def domainOf (e : Str) : Str := (splitOnChar '@' e).getLastD []

/-- Modelled from the spec's words for the refinement comparison of the
ranking step (§4.3): "if any candidate's **local-part** contains one of a
fixed priority vocabulary (contact, info, hello, support)". -/
def localPartHasPriorityKeyword (email : Str) : Bool :=
  let lowerLocal := jsToLower (localPartOf email)
  includesL lowerLocal (str "contact") || includesL lowerLocal (str "info") ||
  includesL lowerLocal (str "hello") || includesL lowerLocal (str "support")

/-- Concatenation with a one-character separator, the inverse of
`splitOnChar`. -/
def joinSep (c : Char) : List Str → Str
  | [] => []
  | [x] => x
  | x :: xs => x ++ c :: joinSep c xs

/-- An event that commits a terminal job status. -/
def isTerminalEvent : Event → Bool
  | .statusUpdate .completed => true
  | .statusUpdate .failed => true
  | _ => false

/-! ## Basic lemmas about the string primitives -/

theorem includesL_iff {s p : Str} : includesL s p = true ↔ p <:+: s := by
  simp [includesL]

theorem includesL_extend {s t p : Str} (h : includesL t p = true)
    (hts : t <:+: s) : includesL s p = true :=
  includesL_iff.mpr ((includesL_iff.mp h).trans hts)

theorem splitOnChar_ne_nil (c : Char) (s : Str) : splitOnChar c s ≠ [] := by
  cases s with
  | nil => simp [splitOnChar]
  | cons a rest =>
    simp only [splitOnChar]
    split
    · simp
    · cases h : splitOnChar c rest <;> simp

theorem joinSep_splitOnChar (c : Char) (s : Str) :
    joinSep c (splitOnChar c s) = s := by
  induction s with
  | nil => rfl
  | cons a rest ih =>
    simp only [splitOnChar]
    split
    · rename_i h
      subst h
      have hne := splitOnChar_ne_nil a rest
      cases hr : splitOnChar a rest with
      | nil => exact absurd hr hne
      | cons x xs =>
        rw [hr] at ih
        simp only [joinSep]
        rw [ih]
        simp
    · cases hr : splitOnChar c rest with
      | nil => exact absurd hr (splitOnChar_ne_nil c rest)
      | cons x xs =>
        rw [hr] at ih
        cases xs with
        | nil => simpa [joinSep] using congrArg (a :: ·) ih
        | cons y ys => simpa [joinSep] using congrArg (a :: ·) ih

theorem mem_joinSep_within {c : Char} {p : Str} :
    ∀ {l : List Str}, p ∈ l → p <:+: joinSep c l := by
  intro l
  induction l with
  | nil => intro h; cases h
  | cons x xs ih =>
    intro h
    cases h with
    | head =>
      cases xs with
      | nil => exact List.infix_rfl
      | cons y ys =>
        show p <:+: p ++ c :: joinSep c (y :: ys)
        exact (List.prefix_append p (c :: joinSep c (y :: ys))).isInfix
    | tail _ hmem =>
      cases xs with
      | nil => cases hmem
      | cons y ys =>
        have h1 : p <:+: joinSep c (y :: ys) := ih hmem
        have h2 : joinSep c (y :: ys) <:+ x ++ c :: joinSep c (y :: ys) :=
          (List.suffix_cons c (joinSep c (y :: ys))).trans
            (List.suffix_append x (c :: joinSep c (y :: ys)))
        exact h1.trans h2.isInfix

/-- Every field of `split` occurs contiguously in the original string. -/
theorem mem_splitOnChar_within {c : Char} {s p : Str}
    (h : p ∈ splitOnChar c s) : p <:+: s := by
  have := @mem_joinSep_within c p (splitOnChar c s) h
  rwa [joinSep_splitOnChar] at this

/-- A two-field split reassembles around the separator. -/
theorem splitOnChar_pair {c : Char} {s u d : Str}
    (h : splitOnChar c s = [u, d]) : s = u ++ c :: d := by
  have := joinSep_splitOnChar c s
  rw [h] at this
  simpa [joinSep] using this.symm

/-! ### Character-class facts -/

theorem char_le_iff_toNat {a b : Char} : a ≤ b ↔ a.toNat ≤ b.toNat := by
  show a.val ≤ b.val ↔ _
  rw [UInt32.le_def, BitVec.le_def]
  exact Iff.rfl

theorem toNat_bounds_of_isUpperC {c : Char} (h : isUpperC c = true) :
    65 ≤ c.toNat ∧ c.toNat ≤ 90 := by
  simp only [isUpperC, Bool.and_eq_true, decide_eq_true_eq] at h
  exact ⟨char_le_iff_toNat.mp h.1, char_le_iff_toNat.mp h.2⟩

theorem lowerChar_shift : ∀ n < 91, 65 ≤ n → isUpperC (Char.ofNat (n + 32)) = false := by
  decide

theorem isUpperC_lowerChar (c : Char) : isUpperC (lowerChar c) = false := by
  by_cases h : isUpperC c = true
  · obtain ⟨h1, h2⟩ := toNat_bounds_of_isUpperC h
    rw [lowerChar, if_pos h]
    exact lowerChar_shift c.toNat (by omega) h1
  · rw [lowerChar, if_neg h]
    exact Bool.not_eq_true _ |>.mp h

theorem lowerChar_eq_self {c : Char} (h : isUpperC c = false) : lowerChar c = c := by
  rw [lowerChar, if_neg]
  simp [h]

theorem jsToLower_eq_self {s : Str} (h : ∀ c ∈ s, isUpperC c = false) :
    jsToLower s = s := by
  induction s with
  | nil => rfl
  | cons a t ih =>
    show lowerChar a :: jsToLower t = a :: t
    rw [lowerChar_eq_self (h a (List.mem_cons_self a t)),
        ih (fun c hc => h c (List.mem_cons_of_mem a hc))]

theorem mem_jsToLower_not_upper {s : Str} {c : Char} (h : c ∈ jsToLower s) :
    isUpperC c = false := by
  obtain ⟨c₀, _, rfl⟩ := List.mem_map.mp h
  exact isUpperC_lowerChar c₀

theorem isSpaceC_eq_false_of_isLocalChar {c : Char} (h : isLocalChar c = true) :
    isSpaceC c = false := by
  by_contra hs
  rw [Bool.not_eq_false] at hs
  simp only [isSpaceC, Bool.or_eq_true, decide_eq_true_eq] at hs
  rcases hs with ((rfl | rfl) | rfl) | rfl <;> exact absurd h (by decide)

theorem isSpaceC_eq_false_of_isDomChar {c : Char} (h : isDomChar c = true) :
    isSpaceC c = false := by
  by_contra hs
  rw [Bool.not_eq_false] at hs
  simp only [isSpaceC, Bool.or_eq_true, decide_eq_true_eq] at hs
  rcases hs with ((rfl | rfl) | rfl) | rfl <;> exact absurd h (by decide)

/-! ### `dropTrailing`, `jsTrim` and `stripEdges` structure -/

theorem dropTrailing_pref (p : Char → Bool) (s : Str) : dropTrailing p s <+: s := by
  rw [dropTrailing, ← List.reverse_suffix, List.reverse_reverse]
  exact List.dropWhile_suffix p

theorem stripEdges_infixOf (s : Str) : stripEdges s <:+: s :=
  (dropTrailing_pref _ _).isInfix.trans (List.dropWhile_suffix _).isInfix

theorem hasImageExt_false_within {s t : Str} (hts : t <:+: s)
    (h : hasImageExt s = false) : hasImageExt t = false := by
  rw [hasImageExt, List.any_eq_false] at h ⊢
  intro p hp hc
  exact h p hp (includesL_extend hc hts)

theorem dropWhile_eq_self_of_all {p : Char → Bool} {s : Str}
    (h : ∀ c ∈ s, p c = false) : s.dropWhile p = s := by
  cases s with
  | nil => rfl
  | cons a t =>
    rw [List.dropWhile_cons, if_neg]
    simp [h a (List.mem_cons_self a t)]

theorem dropTrailing_eq_self_of_all {p : Char → Bool} {s : Str}
    (h : ∀ c ∈ s, p c = false) : dropTrailing p s = s := by
  rw [dropTrailing, dropWhile_eq_self_of_all, List.reverse_reverse]
  intro c hc
  exact h c (List.mem_reverse.mp hc)

theorem pref_head? {l₁ l₂ : Str} {a : Char} (h : l₁ <+: l₂)
    (ha : l₁.head? = some a) : l₂.head? = some a := by
  obtain ⟨t, rfl⟩ := h
  cases l₁ with
  | nil => cases ha
  | cons x xs => simpa using ha

theorem head?_dropWhile_false {p : Char → Bool} {l : Str} {a : Char}
    (h : (l.dropWhile p).head? = some a) : p a = false := by
  have := List.head?_dropWhile_not p l
  rw [h] at this
  exact this

/-- Unpack a successful shape test into its components. -/
theorem validShape_elim {v : Str} (h : validShape v = true) :
    ∃ u d, splitOnChar '@' v = [u, d] ∧ u ≠ [] ∧
      (∀ c ∈ u, isLocalChar c = true) ∧ (∀ c ∈ d, isDomChar c = true) ∧
      d.contains '.' = true ∧ 2 ≤ (afterLast '.' d).length ∧
      (∀ c ∈ afterLast '.' d, isAlphaC c = true) ∧
      (afterLast '.' d).length + 2 ≤ d.length := by
  rw [validShape] at h
  cases hsplit : splitOnChar '@' v with
  | nil => rw [hsplit] at h; exact absurd h Bool.false_ne_true
  | cons u rest =>
    cases rest with
    | nil => rw [hsplit] at h; exact absurd h Bool.false_ne_true
    | cons d rest2 =>
      cases rest2 with
      | cons x xs => rw [hsplit] at h; exact absurd h Bool.false_ne_true
      | nil =>
        rw [hsplit] at h
        have h' : (!u.isEmpty && u.all isLocalChar && d.all isDomChar &&
            d.contains '.' && decide (2 ≤ (afterLast '.' d).length) &&
            (afterLast '.' d).all isAlphaC &&
            decide ((afterLast '.' d).length + 2 ≤ d.length)) = true := h
        simp only [Bool.and_eq_true, decide_eq_true_eq, List.all_eq_true,
          Bool.not_eq_true', List.isEmpty_eq_false_iff_exists_mem] at h'
        obtain ⟨⟨⟨⟨⟨⟨hne, hu⟩, hd⟩, hdot⟩, hlen⟩, halpha⟩, hbefore⟩ := h'
        refine ⟨u, d, rfl, ?_, hu, hd, hdot, hlen, halpha, hbefore⟩
        obtain ⟨a, ha⟩ := hne
        intro hnil
        rw [hnil] at ha
        cases ha

/-- The characters of a shape-valid string are local-part characters, the
separator `@`, or domain characters. -/
theorem validShape_chars {v : Str} (h : validShape v = true) :
    ∀ c ∈ v, isLocalChar c = true ∨ c = '@' ∨ isDomChar c = true := by
  obtain ⟨u, d, hsplit, _, hu, hd, _⟩ := validShape_elim h
  intro c hc
  rw [splitOnChar_pair hsplit] at hc
  rcases List.mem_append.mp hc with hcu | hcd
  · exact Or.inl (hu c hcu)
  · rcases hcd with _ | hcd
    · exact Or.inr (Or.inl rfl)
    · exact Or.inr (Or.inr (hd c (by assumption)))

/-- A shape-valid string contains no whitespace, so `trim` keeps it. -/
theorem jsTrim_eq_self_of_validShape {v : Str} (h : validShape v = true) :
    jsTrim v = v := by
  have hc : ∀ c ∈ v, isSpaceC c = false := by
    intro c hc
    rcases validShape_chars h c hc with hl | rfl | hd
    · exact isSpaceC_eq_false_of_isLocalChar hl
    · decide
    · exact isSpaceC_eq_false_of_isDomChar hd
  rw [jsTrim, dropWhile_eq_self_of_all hc, dropTrailing_eq_self_of_all hc]

/-- A shape-valid string ends in a letter. -/
theorem validShape_last_alpha {v : Str} (h : validShape v = true) :
    ∃ a, v.reverse.head? = some a ∧ isAlphaC a = true := by
  obtain ⟨u, d, hsplit, _, _, _, _, hlen, halpha, _⟩ := validShape_elim h
  -- the segment after the last dot of `d` is nonempty, all letters, and is
  -- a reversed `takeWhile` of `d.reverse`, so `d.reverse` starts with a letter
  set t := d.reverse.takeWhile (fun a => a ≠ '.') with ht
  have htne : t ≠ [] := by
    intro hnil
    rw [afterLast, ← ht, hnil] at hlen
    simp at hlen
  obtain ⟨b, bs, hb⟩ := List.exists_cons_of_ne_nil htne
  have hbd : d.reverse.head? = some b := by
    have hht := List.head?_takeWhile (fun a => a ≠ '.') d.reverse
    rw [← ht, hb] at hht
    cases hdr : d.reverse.head? with
    | none => rw [hdr] at hht; simp at hht
    | some x =>
      rw [hdr] at hht
      simp only [List.head?_cons] at hht
      rcases Option.filter_eq_some.mp hht.symm with ⟨hx, _⟩
      rw [hx]
  have hba : isAlphaC b = true := by
    have hmem : b ∈ afterLast '.' d := by
      rw [afterLast, ← ht, hb]
      exact List.mem_reverse.mpr (List.mem_cons_self b bs)
    exact halpha b hmem
  refine ⟨b, ?_, hba⟩
  rw [splitOnChar_pair hsplit, List.reverse_append]
  cases hdr : d.reverse with
  | nil => rw [hdr] at hbd; cases hbd
  | cons x xs =>
    rw [hdr] at hbd
    simp only [List.head?_cons] at hbd
    simp [hdr, ← Option.some_inj.mp hbd]

theorem stripEdges_head_alnum {s : Str} {a : Char}
    (h : (stripEdges s).head? = some a) : isAlnumC a = true := by
  have hpref : stripEdges s <+: s.dropWhile (fun c => !isAlnumC c) :=
    dropTrailing_pref _ _
  have h2 : (s.dropWhile (fun c => !isAlnumC c)).head? = some a := pref_head? hpref h
  have h3 := head?_dropWhile_false h2
  simpa using h3

theorem dropWhile_eq_self_of_head? {p : Char → Bool} {s : Str} {a : Char}
    (hh : s.head? = some a) (hpa : p a = false) : s.dropWhile p = s := by
  cases s with
  | nil => cases hh
  | cons x t =>
    simp only [List.head?_cons, Option.some_inj] at hh
    subst hh
    rw [List.dropWhile_cons, if_neg (by simp [hpa])]

theorem validateEmail_some_elim {e v : Str} (h : validateEmail e = some v) :
    v = stripEdges (jsToLower (jsTrim e)) ∧
    hasImageExt (jsToLower (jsTrim e)) = false ∧ validShape v = true ∧
    ∃ u d, splitOnChar '@' v = [u, d] ∧
      (d.contains '.' && !hasDimPattern d) = true := by
  simp only [validateEmail] at h
  split at h
  · exact absurd h (by simp)
  · rename_i hext
    split at h
    · rename_i hshape
      split at h
      · rename_i u d heq
        split at h
        · rename_i hcond
          rw [Option.some_inj] at h
          subst h
          exact ⟨rfl, by simpa using hext, hshape, u, d, heq, hcond⟩
        · exact absurd h (by simp)
      · exact absurd h (by simp)
    · exact absurd h (by simp)

/-- `validateEmail` is a fixed point on its own outputs: a value it returns
is returned unchanged when validated again. -/
theorem validateEmail_fixed {e v : Str} (h : validateEmail e = some v) :
    validateEmail v = some v := by
  obtain ⟨hv, hext, hshape, u, d, hsplit, hcond⟩ := validateEmail_some_elim h
  have htrim : jsTrim v = v := jsTrim_eq_self_of_validShape hshape
  have hlower : jsToLower v = v := by
    apply jsToLower_eq_self
    intro c hc
    have hinf : v <:+: jsToLower (jsTrim e) := hv ▸ stripEdges_infixOf _
    exact mem_jsToLower_not_upper (hinf.subset hc)
  have hextv : hasImageExt v = false :=
    hasImageExt_false_within (hv ▸ stripEdges_infixOf _) hext
  have hstrip : stripEdges v = v := by
    rw [stripEdges]
    have hhead : v.dropWhile (fun c => !isAlnumC c) = v := by
      cases hh : v.head? with
      | none =>
        rw [List.head?_eq_none_iff] at hh
        rw [hh]
        rfl
      | some a =>
        apply dropWhile_eq_self_of_head? hh
        have ha : (stripEdges (jsToLower (jsTrim e))).head? = some a := hv ▸ hh
        have hal := stripEdges_head_alnum ha
        simp [hal]
    rw [hhead]
    obtain ⟨a, hha, haa⟩ := validShape_last_alpha hshape
    rw [dropTrailing,
        dropWhile_eq_self_of_head? hha (by simp [isAlnumC, haa]),
        List.reverse_reverse]
  simp only [validateEmail, htrim, hlower, hextv, hstrip, hshape, hsplit,
    Bool.false_eq_true, if_false, if_true, hcond]

/-! ### First-round fold lemmas -/

theorem foldl_cleanStep_mem {v : Str} :
    ∀ (xs acc : List Str), v ∈ xs.foldl cleanStep acc →
      v ∈ acc ∨ ∃ e ∈ xs, validateEmail e = some v ∧ inIgnoreDomains v = false := by
  intro xs
  induction xs with
  | nil => intro acc h; exact Or.inl h
  | cons x xs ih =>
    intro acc h
    rcases ih (cleanStep acc x) h with hacc | ⟨e, he, hv⟩
    · cases hve : validateEmail x with
      | none =>
        simp only [cleanStep, hve] at hacc
        exact Or.inl hacc
      | some w =>
        simp only [cleanStep, hve] at hacc
        split at hacc
        · exact Or.inl hacc
        · rename_i hig
          simp only [addUnique] at hacc
          split at hacc
          · exact Or.inl hacc
          · rcases List.mem_append.mp hacc with h1 | h2
            · exact Or.inl h1
            · have hvw : v = w := by simpa using h2
              subst hvw
              exact Or.inr ⟨x, List.mem_cons_self x xs, hve, by simpa using hig⟩
    · exact Or.inr ⟨e, List.mem_cons_of_mem _ he, hv⟩

theorem cleanStep_nodup {acc : List Str} (h : acc.Nodup) (x : Str) :
    (cleanStep acc x).Nodup := by
  cases hve : validateEmail x with
  | none => simpa only [cleanStep, hve] using h
  | some w =>
    simp only [cleanStep, hve]
    split
    · exact h
    · simp only [addUnique]
      split
      · exact h
      · rename_i hw
        refine List.Nodup.append h (List.nodup_singleton w) ?_
        intro a ha hb
        rw [List.mem_singleton] at hb
        subst hb
        exact hw ha

theorem foldl_cleanStep_nodup :
    ∀ (xs acc : List Str), acc.Nodup → (xs.foldl cleanStep acc).Nodup := by
  intro xs
  induction xs with
  | nil => intro acc h; exact h
  | cons x xs ih => intro acc h; exact ih (cleanStep acc x) (cleanStep_nodup h x)

theorem foldl_cleanStep_fixed :
    ∀ (ys acc : List Str),
      (∀ y ∈ ys, validateEmail y = some y ∧ inIgnoreDomains y = false) →
      ys.Nodup → (∀ y ∈ ys, y ∉ acc) →
      ys.foldl cleanStep acc = acc ++ ys := by
  intro ys
  induction ys with
  | nil => intro acc _ _ _; simp
  | cons y ys ih =>
    intro acc hval hnd hdisj
    have hy := hval y (List.mem_cons_self y ys)
    have hstep : cleanStep acc y = acc ++ [y] := by
      simp only [cleanStep, hy.1]
      rw [if_neg (by simp [hy.2]), addUnique,
          if_neg (hdisj y (List.mem_cons_self y ys))]
    have hrest : ys.foldl cleanStep (acc ++ [y]) = (acc ++ [y]) ++ ys := by
      refine ih (acc ++ [y]) (fun z hz => hval z (List.mem_cons_of_mem _ hz))
        (List.Nodup.of_cons hnd) ?_
      intro z hz hmem
      rcases List.mem_append.mp hmem with h1 | h2
      · exact hdisj z (List.mem_cons_of_mem _ hz) h1
      · rw [List.mem_singleton] at h2
        subst h2
        exact (List.nodup_cons.mp hnd).1 hz
    rw [List.foldl_cons, hstep, hrest, List.append_assoc]
    rfl

/-- Every survivor of the full cleaning pass validates to itself and avoids
the ignore list. -/
theorem mem_clean_fixed {x : List Str} {v : Str}
    (h : v ∈ cleanAndDeduplicateEmails x) :
    validateEmail v = some v ∧ inIgnoreDomains v = false := by
  rw [cleanAndDeduplicateEmails] at h
  split at h
  · cases h
  · have hl : v ∈ cleanPhase1 x := (List.mem_filter.mp h).1
    rcases foldl_cleanStep_mem x [] hl with hnil | ⟨e, _, hve, hig⟩
    · cases hnil
    · exact ⟨validateEmail_fixed hve, hig⟩

theorem mem_clean_elim {x : List Str} {v : Str}
    (h : v ∈ cleanAndDeduplicateEmails x) :
    v ∈ cleanPhase1 x ∧ markedForRemoval (cleanPhase1 x) v = false := by
  rw [cleanAndDeduplicateEmails] at h
  split at h
  · cases h
  · have hm := List.mem_filter.mp h
    exact ⟨hm.1, by simpa using hm.2⟩

theorem clean_nodup (x : List Str) : (cleanAndDeduplicateEmails x).Nodup := by
  rw [cleanAndDeduplicateEmails]
  split
  · exact List.nodup_nil
  · exact (foldl_cleanStep_nodup x [] List.nodup_nil).filter _

theorem markedForRemoval_mono {l₁ l₂ : List Str} {v : Str}
    (hsub : ∀ y ∈ l₁, y ∈ l₂) (h : markedForRemoval l₁ v = true) :
    markedForRemoval l₂ v = true := by
  rw [markedForRemoval, List.any_eq_true] at h ⊢
  obtain ⟨y, hy, hc⟩ := h
  exact ⟨y, hsub y hy, hc⟩

/-- A list of self-validating, non-ignored, pairwise-unmarked candidates is
a fixed point of the full cleaning pass. -/
theorem clean_eq_self {out : List Str}
    (hval : ∀ v ∈ out, validateEmail v = some v ∧ inIgnoreDomains v = false)
    (hnd : out.Nodup)
    (hmark : ∀ v ∈ out, markedForRemoval out v = false) :
    cleanAndDeduplicateEmails out = out := by
  cases hout : out with
  | nil => rfl
  | cons o os =>
    rw [← hout]
    rw [cleanAndDeduplicateEmails, if_neg (by rw [hout]; simp)]
    have hp1 : cleanPhase1 out = out := by
      have hfix := foldl_cleanStep_fixed out [] hval hnd
        (by intro y _ hy; cases hy)
      simpa [cleanPhase1] using hfix
    rw [hp1]
    exact List.filter_eq_self.mpr (fun v hv => by simp [hmark v hv])

/-- C6: the Validator is idempotent: for every list `x` of raw candidate
strings, `clean (clean x) = clean x`, where `clean` is
`cleanAndDeduplicateEmails`. -/
theorem clean_idempotent (x : List Str) :
    cleanAndDeduplicateEmails (cleanAndDeduplicateEmails x) =
      cleanAndDeduplicateEmails x := by
  apply clean_eq_self
  · intro v hv
    exact mem_clean_fixed hv
  · exact clean_nodup x
  · intro v hv
    by_contra hmk
    rw [Bool.not_eq_false] at hmk
    have h2 : markedForRemoval (cleanPhase1 x) v = true :=
      markedForRemoval_mono (fun y hy => (mem_clean_elim hy).1) hmk
    have h3 := (mem_clean_elim hv).2
    simp [h3] at h2

/-! ### Split-part helpers -/

theorem getLastD_mem {l : List Str} (h : l ≠ []) (d : Str) : l.getLastD d ∈ l := by
  induction l with
  | nil => exact absurd rfl h
  | cons a t ih =>
    cases t with
    | nil => simp
    | cons b ts =>
      rw [List.getLastD_cons]
      exact List.mem_cons_of_mem a (ih (by simp))

theorem domainOf_within (v : Str) : domainOf v <:+: v := by
  rw [domainOf]
  exact mem_splitOnChar_within (getLastD_mem (splitOnChar_ne_nil '@' v) [])

theorem lastSeg_infix_self (u : Str) : lastSeg u <:+: u := by
  rw [lastSeg]
  exact mem_splitOnChar_within (getLastD_mem (splitOnChar_ne_nil '.' u) [])

/-- A first-round survivor splits at `@` into exactly its local part and
its domain. -/
theorem phase1_split {x : List Str} {v : Str} (hv : v ∈ cleanPhase1 x) :
    splitOnChar '@' v = [localPartOf v, domainOf v] := by
  rcases foldl_cleanStep_mem x [] hv with hnil | ⟨e, _, hve, _⟩
  · cases hnil
  · obtain ⟨_, _, _, u, d, hsplit, _⟩ := validateEmail_some_elim hve
    rw [localPartOf, domainOf, hsplit]
    rfl

/-- C8: for every input candidate list, no email returned by the Validator
has a domain that is in the fixed ignore-list (wix.com, domain.com,
example.com, sentry.io, wixpress.com, squarespace.com, wordpress.com,
shopify.com). -/
theorem clean_no_ignored_domain {x : List Str} {v : Str}
    (h : v ∈ cleanAndDeduplicateEmails x) : domainOf v ∉ IGNORE_DOMAINS := by
  intro hdom
  have hfix := mem_clean_fixed h
  have hig := hfix.2
  rw [inIgnoreDomains, List.any_eq_false] at hig
  exact hig (domainOf v) hdom
    (includesL_iff.mpr (domainOf_within v))

/-- C8 witness: a concrete survivor whose domain avoids the ignore-list. -/
theorem clean_no_ignored_domain_witness :
    (str "info@acme.com") ∈ cleanAndDeduplicateEmails [str "info@acme.com"] ∧
    domainOf (str "info@acme.com") ∉ IGNORE_DOMAINS :=
  ⟨by decide,
    @clean_no_ignored_domain [str "info@acme.com"] (str "info@acme.com")
      (by decide)⟩

/-- C9 counterexample: with the three same-domain survivors `a@acme.com`,
`ab@acme.com`, `abc@acme.com`, the pair (`ab@acme.com`, `abc@acme.com`) is
a pair of distinct surviving candidates with the same domain where one
local-part is a substring of the other, so the claim demands that the
shorter `ab@acme.com` be kept — but the Validator also drops it (because
of `a@acme.com`), returning only `a@acme.com`. -/
theorem subset_merge_chain_counterexample :
    cleanPhase1 [str "a@acme.com", str "ab@acme.com", str "abc@acme.com"] =
      [str "a@acme.com", str "ab@acme.com", str "abc@acme.com"] ∧
    domainOf (str "abc@acme.com") = domainOf (str "ab@acme.com") ∧
    includesL (localPartOf (str "abc@acme.com"))
      (localPartOf (str "ab@acme.com")) = true ∧
    cleanAndDeduplicateEmails
        [str "a@acme.com", str "ab@acme.com", str "abc@acme.com"] =
      [str "a@acme.com"] := by
  refine ⟨by decide, by decide, by decide, by decide⟩

/-- C9 (amended): for every pair of distinct first-round survivors sharing
the same domain where one local-part is a substring of the other (or one
local-part's final dot-segment equals the other's entire local-part, a
special case of substring containment), the Validator drops the longer
candidate; the shorter is kept only if no other candidate removes it in
turn, and in the two-candidate scenario `info@acme.com` /
`project.info@acme.com` the result is exactly `[info@acme.com]`. -/
theorem subset_merge_drops_longer :
    (∀ (xs : List Str) (x y : Str), x ∈ cleanPhase1 xs → y ∈ cleanPhase1 xs →
      x ≠ y → domainOf x = domainOf y →
      (includesL (localPartOf x) (localPartOf y) = true ∨
        ((localPartOf x).contains '.' = true ∧
          lastSeg (localPartOf x) = localPartOf y)) →
      x ∉ cleanAndDeduplicateEmails xs) ∧
    cleanAndDeduplicateEmails
        [str "info@acme.com", str "project.info@acme.com"] =
      [str "info@acme.com"] := by
  constructor
  · intro xs x y hx hy hne hdom hcond hmem
    have hsx := phase1_split hx
    have hsy := phase1_split hy
    have hinc : includesL (localPartOf x) (localPartOf y) = true := by
      rcases hcond with hc | ⟨_, hseg⟩
      · exact hc
      · exact includesL_iff.mpr (hseg ▸ lastSeg_infix_self (localPartOf x))
    have hpm : pairMark x y = some true := by
      simp only [pairMark, hsx, hsy]
      rw [if_pos hdom, if_pos hinc]
    have hmarked : markedForRemoval (cleanPhase1 xs) x = true := by
      rw [markedForRemoval, List.any_eq_true]
      exact ⟨y, hy, by simp [hne, hpm]⟩
    have hnm := (mem_clean_elim hmem).2
    simp [hmarked] at hnm
  · decide

/-- C9 witness: the universal part applied to the two-candidate scenario:
the longer `project.info@acme.com` is not in the cleaned output. -/
theorem subset_merge_drops_longer_witness :
    (str "project.info@acme.com") ∉
      cleanAndDeduplicateEmails
        [str "info@acme.com", str "project.info@acme.com"] :=
  subset_merge_drops_longer.1
    [str "info@acme.com", str "project.info@acme.com"]
    (str "project.info@acme.com") (str "info@acme.com")
    (by decide) (by decide) (by decide) (by decide) (Or.inl (by decide))

theorem filter_head?_eq_find? (p : Str → Bool) :
    ∀ l : List Str, (l.filter p).head? = l.find? p := by
  intro l
  induction l with
  | nil => rfl
  | cons a t ih =>
    by_cases hpa : p a = true
    · simp [List.filter_cons, List.find?_cons, hpa]
    · rw [Bool.not_eq_true] at hpa
      simp [List.filter_cons, List.find?_cons, hpa, ih]

/-- C7 counterexample: with the ordered candidate list
`[bob@supportive.com, contact@acme.com]`, a candidate whose local-part
contains a priority keyword exists (`contact@acme.com`), yet the engine
returns `bob@supportive.com`, whose local-part contains none — the
priority test of the source checks the whole email string (here the domain
`supportive.com` contains `support`), not the local-part. -/
theorem priority_whole_email_counterexample :
    localPartHasPriorityKeyword (str "bob@supportive.com") = false ∧
    localPartHasPriorityKeyword (str "contact@acme.com") = true ∧
    selectEmail [str "bob@supportive.com", str "contact@acme.com"] =
      some (str "bob@supportive.com") := by
  refine ⟨by decide, by decide, by decide⟩

/-- C7 (amended): the engine returns the first candidate whose **whole
email string**, lowercased, contains one of contact/info/hello/support if
any such candidate exists, otherwise the first candidate of the list; it
returns `none` exactly when the candidate list is empty. -/
theorem selectEmail_first_priority (emails : List Str) :
    (selectEmail emails = none ↔ emails = []) ∧
    (∀ p, emails.find? isPriorityEmail = some p →
      selectEmail emails = some p) ∧
    (emails.find? isPriorityEmail = none →
      selectEmail emails = emails.head?) := by
  refine ⟨?_, ?_, ?_⟩
  · cases emails with
    | nil => simp [selectEmail]
    | cons a t =>
      simp only [selectEmail]
      rw [if_pos (by simp)]
      constructor
      · intro hnone
        split at hnone
        · rename_i hlen
          rcases List.exists_cons_of_ne_nil
            (List.length_pos_iff_ne_nil.mp hlen) with ⟨b, bs, hb⟩
          rw [hb] at hnone
          cases hnone
        · cases hnone
      · intro habs
        cases habs
  · intro p hp
    have hne : emails ≠ [] := by
      intro hnil
      rw [hnil] at hp
      cases hp
    rw [selectEmail, if_pos (by simpa [List.length_pos_iff_ne_nil] using hne)]
    rw [← filter_head?_eq_find?] at hp
    rw [if_pos]
    · exact hp
    · rcases hh : emails.filter isPriorityEmail with _ | ⟨b, bs⟩
      · rw [hh] at hp
        cases hp
      · simp [hh]
  · intro hnone
    cases emails with
    | nil => rfl
    | cons a t =>
      rw [selectEmail, if_pos (by simp)]
      rw [← filter_head?_eq_find?] at hnone
      rw [if_neg]
      rcases hh : (a :: t).filter isPriorityEmail with _ | ⟨b, bs⟩
      · simp [hh]
      · rw [hh] at hnone
        cases hnone

/-- C7 witness: the amended theorem applied to a one-candidate list whose
candidate carries a priority keyword. -/
theorem selectEmail_first_priority_witness :
    selectEmail [str "contact@a.com"] = some (str "contact@a.com") :=
  (selectEmail_first_priority [str "contact@a.com"]).2.1
    (str "contact@a.com") (by decide)

/-- C10: the extraction function invoked by the Job Runner per URL never
returns an email containing (case-insensitively) noreply, no-reply,
donotreply, no_reply, or example.com. -/
theorem extractEmailsFromHtml_no_service {ms : List Str} {e : Str}
    (h : e ∈ extractEmailsFromHtml ms) :
    includesL (jsToLower e) (str "noreply") = false ∧
    includesL (jsToLower e) (str "no-reply") = false ∧
    includesL (jsToLower e) (str "donotreply") = false ∧
    includesL (jsToLower e) (str "no_reply") = false ∧
    includesL (jsToLower e) (str "example.com") = false := by
  have hk := (List.mem_filter.mp h).2
  simp only [keepNonServiceEmail, Bool.and_eq_true, Bool.not_eq_true'] at hk
  exact ⟨hk.1.1.1.1, hk.1.1.1.2, hk.1.1.2, hk.1.2, hk.2⟩

/-- C10 witness: a concrete match that passes the service-address filter. -/
theorem extractEmailsFromHtml_no_service_witness :
    (str "info@a.com") ∈ extractEmailsFromHtml [str "info@a.com"] ∧
    includesL (jsToLower (str "info@a.com")) (str "noreply") = false ∧
    includesL (jsToLower (str "info@a.com")) (str "no-reply") = false ∧
    includesL (jsToLower (str "info@a.com")) (str "donotreply") = false ∧
    includesL (jsToLower (str "info@a.com")) (str "no_reply") = false ∧
    includesL (jsToLower (str "info@a.com")) (str "example.com") = false :=
  ⟨by decide,
    @extractEmailsFromHtml_no_service [str "info@a.com"] (str "info@a.com")
      (by decide)⟩

/-! ### Runner-trace lemmas -/

theorem runnerTrace_ok (urls : List Str) (outcome : Str → UrlOutcome) :
    runnerTrace urls outcome false false false =
      Event.statusUpdate .processing ::
        (urls.map (fun u => Event.resultCreate u (resultEmail (outcome u))) ++
         [Event.statusUpdate .completed]) := rfl

theorem countResults_append (l₁ l₂ : List Event) :
    countResults (l₁ ++ l₂) = countResults l₁ + countResults l₂ := by
  rw [countResults, countResults, countResults, List.filter_append,
    List.length_append]

theorem countResults_resultCreate (w : Str) (m : Option Str) :
    countResults [Event.resultCreate w m] = 1 := rfl

/-- C2 (code behavior at the failing input): with every fetch failing, a
URL submitted without a scheme is normalized to `https` and fetched once —
the `http` retry of the catch handler is skipped, because the guard tests
the submitted string for `https://` rather than the normalized URL — and
the function throws; with an explicit `https://` prefix the same code does
retry over `http`. -/
theorem retry_skipped_for_schemeless_url :
    (extractEmailFromWebsite (fun _ => none) (str "site.test")).2 =
      [str "https://site.test"] ∧
    (extractEmailFromWebsite (fun _ => none) (str "site.test")).1 =
      Except.error () ∧
    (extractEmailFromWebsite (fun _ => none) (str "https://site.test")).2 =
      [str "https://site.test", str "http://site.test"] :=
  ⟨by decide, rfl, by decide⟩

/-- C1: after each individual URL finishes (success or failure), the trace
gains exactly one `Result` row for that URL; the observed `processedUrls`
counter (derived by the job GET route from the persisted `Result` count)
increases by exactly one per URL, and the observed `progress` is monotone
— per URL, not once per batch. -/
theorem runner_per_url_progress (urls : List Str) (outcome : Str → UrlOutcome)
    (total k : Nat) (hk : k < urls.length) :
    (runnerTrace urls outcome false false false).take (k + 2) =
      (runnerTrace urls outcome false false false).take (k + 1) ++
        [Event.resultCreate (urls.get ⟨k, hk⟩)
          (resultEmail (outcome (urls.get ⟨k, hk⟩)))] ∧
    observedProcessed ((runnerTrace urls outcome false false false).take (k + 2)) =
      observedProcessed ((runnerTrace urls outcome false false false).take (k + 1)) + 1 ∧
    observedProgress total ((runnerTrace urls outcome false false false).take (k + 1)) ≤
      observedProgress total ((runnerTrace urls outcome false false false).take (k + 2)) := by
  have hmlen : k < (urls.map (fun u =>
      Event.resultCreate u (resultEmail (outcome u)))).length := by
    simpa using hk
  have htake1 : (runnerTrace urls outcome false false false).take (k + 1) =
      Event.statusUpdate .processing ::
        (urls.map (fun u => Event.resultCreate u (resultEmail (outcome u)))).take k := by
    rw [runnerTrace_ok, List.take_succ_cons]
    rw [List.take_append_of_le_length (Nat.le_of_lt hmlen)]
  have htake2 : (runnerTrace urls outcome false false false).take (k + 2) =
      Event.statusUpdate .processing ::
        (urls.map (fun u => Event.resultCreate u (resultEmail (outcome u)))).take (k + 1) := by
    rw [runnerTrace_ok, List.take_succ_cons]
    rw [List.take_append_of_le_length hmlen]
  have hsucc : (urls.map (fun u =>
      Event.resultCreate u (resultEmail (outcome u)))).take (k + 1) =
      (urls.map (fun u => Event.resultCreate u (resultEmail (outcome u)))).take k ++
        [Event.resultCreate (urls.get ⟨k, hk⟩)
          (resultEmail (outcome (urls.get ⟨k, hk⟩)))] := by
    rw [List.take_succ]
    congr 1
    rw [List.getElem?_map]
    rw [List.getElem?_eq_getElem hk]
    rfl
  have hconj1 : (runnerTrace urls outcome false false false).take (k + 2) =
      (runnerTrace urls outcome false false false).take (k + 1) ++
        [Event.resultCreate (urls.get ⟨k, hk⟩)
          (resultEmail (outcome (urls.get ⟨k, hk⟩)))] := by
    rw [htake1, htake2, hsucc]
    rfl
  refine ⟨hconj1, ?_, ?_⟩
  · rw [hconj1, observedProcessed, observedProcessed, countResults_append,
      countResults_resultCreate]
  · rw [hconj1, observedProgress, observedProgress]
    split
    · apply min_le_min (Nat.le_refl 100)
      apply Nat.div_le_div_right
      apply Nat.mul_le_mul_right
      rw [observedProcessed, observedProcessed, countResults_append]
      exact Nat.le_add_right _ _
    · exact Nat.le_refl 0

/-- C1 witness: the per-URL progress facts at a concrete two-URL job. -/
theorem runner_per_url_progress_witness :
    (runnerTrace [str "a.com", str "b.com"] (fun _ => UrlOutcome.success none)
        false false false).take 2 =
      (runnerTrace [str "a.com", str "b.com"] (fun _ => UrlOutcome.success none)
        false false false).take 1 ++
        [Event.resultCreate (([str "a.com", str "b.com"]).get ⟨0, by decide⟩)
          (resultEmail ((fun _ => UrlOutcome.success none) (([str "a.com", str "b.com"]).get ⟨0, by decide⟩)))] ∧
    observedProcessed ((runnerTrace [str "a.com", str "b.com"]
        (fun _ => UrlOutcome.success none) false false false).take 2) =
      observedProcessed ((runnerTrace [str "a.com", str "b.com"]
        (fun _ => UrlOutcome.success none) false false false).take 1) + 1 ∧
    observedProgress 2 ((runnerTrace [str "a.com", str "b.com"]
        (fun _ => UrlOutcome.success none) false false false).take 1) ≤
      observedProgress 2 ((runnerTrace [str "a.com", str "b.com"]
        (fun _ => UrlOutcome.success none) false false false).take 2) :=
  runner_per_url_progress [str "a.com", str "b.com"]
    (fun _ => UrlOutcome.success none) 2 0 (by decide)

/-- C3: a per-URL failure still yields a `Result` row with a null email,
the job still processes every URL (the observed processed count reaches the
total), and the job still reaches `completed`. -/
theorem failed_fetch_nonfatal (urls : List Str) (outcome : Str → UrlOutcome)
    (u : Str) (hu : u ∈ urls) (hf : outcome u = UrlOutcome.failure) :
    Event.resultCreate u none ∈ runnerTrace urls outcome false false false ∧
    (runnerTrace urls outcome false false false).getLast? =
      some (Event.statusUpdate .completed) ∧
    countResults (runnerTrace urls outcome false false false) =
      urls.length := by
  refine ⟨?_, ?_, ?_⟩
  · rw [runnerTrace_ok]
    apply List.mem_cons_of_mem
    apply List.mem_append_left
    exact List.mem_map.mpr ⟨u, hu, by rw [hf]; rfl⟩
  · rw [runnerTrace_ok, ← List.cons_append]
    exact List.getLast?_concat _
  · rw [runnerTrace_ok]
    show countResults ([Event.statusUpdate .processing] ++
      (urls.map (fun u => Event.resultCreate u (resultEmail (outcome u))) ++
        [Event.statusUpdate .completed])) = urls.length
    rw [countResults_append, countResults_append]
    have hmap : countResults (urls.map (fun u =>
        Event.resultCreate u (resultEmail (outcome u)))) = urls.length := by
      rw [countResults]
      rw [List.filter_eq_self.mpr]
      · exact List.length_map _ _
      · intro e he
        obtain ⟨w, _, rfl⟩ := List.mem_map.mp he
        rfl
    rw [hmap]
    have h0 : countResults [Event.statusUpdate .processing] = 0 := rfl
    have h1 : countResults [Event.statusUpdate .completed] = 0 := rfl
    omega

/-- C3 witness: a one-URL job whose only fetch fails. -/
theorem failed_fetch_nonfatal_witness :
    Event.resultCreate (str "site.test") none ∈
      runnerTrace [str "site.test"] (fun _ => UrlOutcome.failure)
        false false false ∧
    (runnerTrace [str "site.test"] (fun _ => UrlOutcome.failure)
        false false false).getLast? =
      some (Event.statusUpdate .completed) ∧
    countResults (runnerTrace [str "site.test"] (fun _ => UrlOutcome.failure)
        false false false) = ([str "site.test"] : List Str).length :=
  failed_fetch_nonfatal [str "site.test"] (fun _ => UrlOutcome.failure)
    (str "site.test") (by decide) rfl

/-- C4 counterexample: a job whose input list contains the same URL twice
completes normally with **two** `Result` rows for that (jobId, website)
pair — the engine creates rows with `prisma.result.create`, never an
upsert, and the `Result` table has no unique key on (jobId, website). -/
theorem duplicate_url_two_results :
    (runnerTrace [str "a.com", str "a.com"] (fun _ => UrlOutcome.success none)
        false false false).getLast? = some (Event.statusUpdate .completed) ∧
    ((resultRows (runnerTrace [str "a.com", str "a.com"]
          (fun _ => UrlOutcome.success none) false false false)).filter
        (fun r => decide (r.1 = str "a.com"))).length = 2 := by
  refine ⟨by decide, by decide⟩

theorem resultRows_map (urls : List Str) (outcome : Str → UrlOutcome) :
    List.filterMap (fun e => match e with
        | Event.resultCreate w m => some (w, m)
        | _ => none)
      (urls.map (fun u => Event.resultCreate u (resultEmail (outcome u)))) =
      urls.map (fun u => (u, resultEmail (outcome u))) := by
  induction urls with
  | nil => rfl
  | cons a t ih =>
    rw [List.map_cons, List.filterMap_cons]
    show (a, resultEmail (outcome a)) :: _ = _
    rw [ih, List.map_cons]

/-- The `Result` rows of a fault-free run are exactly one row per input
list entry, in order. -/
theorem resultRows_ok (urls : List Str) (outcome : Str → UrlOutcome) :
    resultRows (runnerTrace urls outcome false false false) =
      urls.map (fun u => (u, resultEmail (outcome u))) := by
  rw [runnerTrace_ok, resultRows]
  rw [List.filterMap_cons]
  show List.filterMap _ (_ ++ _) = _
  rw [List.filterMap_append]
  have h1 : List.filterMap (fun e => match e with
      | Event.resultCreate w m => some (w, m)
      | _ => none) [Event.statusUpdate JobStatus.completed] = [] := rfl
  rw [h1, List.append_nil]
  exact resultRows_map urls outcome

theorem filter_eq_singleton_length {w : Str} :
    ∀ (l : List (Str × Option Str)), (l.map Prod.fst).Nodup →
      ((l.filter (fun r => decide (r.1 = w))).length ≤ 1) := by
  intro l
  induction l with
  | nil => intro _; simp
  | cons a t ih =>
    intro hnd
    rw [List.map_cons, List.nodup_cons] at hnd
    rw [List.filter_cons]
    by_cases haw : a.1 = w
    · rw [if_pos (by simp [haw])]
      have hnone : t.filter (fun r => decide (r.1 = w)) = [] := by
        rw [List.filter_eq_nil_iff]
        intro b hb
        simp only [decide_eq_true_eq]
        intro hbw
        exact hnd.1 (haw ▸ hbw ▸ List.mem_map_of_mem Prod.fst hb)
      rw [hnone]
      simp
    · rw [if_neg (by simp [haw])]
      exact ih hnd.2

/-- C4 (amended): when the input URL list has no duplicates, at most one
`Result` row exists per (jobId, website) pair after the job completes; a
duplicated input URL, however, produces one row per occurrence (plain
`create`, no upsert, no unique key). -/
theorem result_unique_for_nodup_urls (urls : List Str)
    (outcome : Str → UrlOutcome) (h : urls.Nodup) (w : Str) :
    ((resultRows (runnerTrace urls outcome false false false)).filter
      (fun r => decide (r.1 = w))).length ≤ 1 := by
  rw [resultRows_ok]
  apply filter_eq_singleton_length
  have hmap : ∀ us : List Str,
      (us.map (fun u => (u, resultEmail (outcome u)))).map Prod.fst = us := by
    intro us
    induction us with
    | nil => rfl
    | cons a t ih =>
      rw [List.map_cons, List.map_cons, ih]
  rw [hmap]
  exact h

/-- C4 witness: a duplicate-free two-URL job. -/
theorem result_unique_for_nodup_urls_witness :
    ((resultRows (runnerTrace [str "a.com", str "b.com"]
          (fun _ => UrlOutcome.success none) false false false)).filter
      (fun r => decide (r.1 = str "a.com"))).length ≤ 1 :=
  result_unique_for_nodup_urls [str "a.com", str "b.com"]
    (fun _ => UrlOutcome.success none) (by decide) (str "a.com")

/-- Any runner trace decomposes into a terminal-free body followed by at
most one terminal status event. -/
theorem runnerTrace_decomp (urls : List Str) (outcome : Str → UrlOutcome)
    (i f ff : Bool) :
    ∃ body tail, runnerTrace urls outcome i f ff = body ++ tail ∧
      (∀ e ∈ body, isTerminalEvent e = false) ∧
      (tail = [] ∨ ∃ e', isTerminalEvent e' = true ∧ tail = [e']) := by
  have hbody : ∀ e ∈ Event.statusUpdate JobStatus.processing ::
      urls.map (fun u => Event.resultCreate u (resultEmail (outcome u))),
      isTerminalEvent e = false := by
    intro e he
    rcases he with _ | hm
    · rfl
    · obtain ⟨w, _, rfl⟩ := List.mem_map.mp (by assumption)
      rfl
  have hnone : ∀ e ∈ ([] : List Event), isTerminalEvent e = false := by
    intro e he
    cases he
  cases i <;> cases f <;> cases ff
  · exact ⟨Event.statusUpdate .processing ::
      urls.map (fun u => Event.resultCreate u (resultEmail (outcome u))),
      [Event.statusUpdate .completed], rfl, hbody,
      Or.inr ⟨Event.statusUpdate .completed, rfl, rfl⟩⟩
  · exact ⟨Event.statusUpdate .processing ::
      urls.map (fun u => Event.resultCreate u (resultEmail (outcome u))),
      [Event.statusUpdate .completed], rfl, hbody,
      Or.inr ⟨Event.statusUpdate .completed, rfl, rfl⟩⟩
  · exact ⟨Event.statusUpdate .processing ::
      urls.map (fun u => Event.resultCreate u (resultEmail (outcome u))),
      [Event.statusUpdate .failed], rfl, hbody,
      Or.inr ⟨Event.statusUpdate .failed, rfl, rfl⟩⟩
  · exact ⟨Event.statusUpdate .processing ::
      urls.map (fun u => Event.resultCreate u (resultEmail (outcome u))),
      [], rfl, hbody, Or.inl rfl⟩
  · exact ⟨[], [Event.statusUpdate .failed], rfl, hnone,
      Or.inr ⟨Event.statusUpdate .failed, rfl, rfl⟩⟩
  · exact ⟨[], [], rfl, hnone, Or.inl rfl⟩
  · exact ⟨[], [Event.statusUpdate .failed], rfl, hnone,
      Or.inr ⟨Event.statusUpdate .failed, rfl, rfl⟩⟩
  · exact ⟨[], [], rfl, hnone, Or.inl rfl⟩

/-- C5: once the runner commits a terminal status (`completed` or
`failed`), the trace ends: no further `Result` is created and the status
never changes again — there is no regression out of a terminal state. -/
theorem terminal_status_is_final (urls : List Str) (outcome : Str → UrlOutcome)
    (i f ff : Bool) (pre post : List Event) (s : JobStatus)
    (h : runnerTrace urls outcome i f ff =
      pre ++ Event.statusUpdate s :: post)
    (hs : s = JobStatus.completed ∨ s = JobStatus.failed) : post = [] := by
  have hterm : isTerminalEvent (Event.statusUpdate s) = true := by
    rcases hs with rfl | rfl <;> rfl
  obtain ⟨body, tail, hbt, hbody, htail⟩ :=
    runnerTrace_decomp urls outcome i f ff
  rw [hbt] at h
  rcases htail with rfl | ⟨e', hte', rfl⟩
  · -- no terminal event exists in the trace at all: contradiction
    rw [List.append_nil] at h
    have hmem : Event.statusUpdate s ∈ body := by
      rw [h]
      exact List.mem_append_right pre (List.mem_cons_self _ post)
    rw [hbody _ hmem] at hterm
    cases hterm
  · -- the single terminal event is the last element of the trace
    cases hpost : post.reverse with
    | nil => exact List.reverse_eq_nil_iff.mp hpost
    | cons r rs =>
      exfalso
      have hrev := congrArg List.reverse h
      simp only [List.reverse_append, List.reverse_cons, List.reverse_nil,
        List.nil_append, List.append_assoc, List.singleton_append, hpost,
        List.cons_append] at hrev
      -- hrev : e' :: body.reverse = r :: (rs ++ (statusUpdate s :: pre.reverse))
      have htail_eq := (List.cons.injEq _ _ _ _).mp hrev
      have hmem : Event.statusUpdate s ∈ body.reverse := by
        rw [htail_eq.2]
        refine List.mem_append_right rs ?_
        exact List.mem_cons_self _ _
      rw [hbody _ (List.mem_reverse.mp hmem)] at hterm
      cases hterm

/-- C5 witness: the empty job's trace, decomposed at its `completed`
event. -/
theorem terminal_status_is_final_witness :
    runnerTrace [] (fun _ => UrlOutcome.success none) false false false =
      [Event.statusUpdate .processing] ++
        Event.statusUpdate JobStatus.completed :: [] ∧
    ([] : List Event) = [] :=
  ⟨by decide,
    terminal_status_is_final [] (fun _ => UrlOutcome.success none)
      false false false [Event.statusUpdate .processing] []
      JobStatus.completed (by decide) (Or.inl rfl)⟩

end Scraper
